import Mathlib

/-!
Verification of the Game of Life simulator (src/src/main.rs).

The simulator keeps a sparse set of alive cells, keyed by a pair of
signed integers, and each tick replaces it by the next Conway
generation.  Machine `i32` coordinates are modelled as `ℤ` (the
application never approaches the `i32` range in the modelled
behaviour), the `HashSet` store as a `Finset`, the `HashMap` neighbor
table as the counting function it computes, and `f32` world positions
as `ℚ`.  Where a theorem quantifies over world positions, the rounding
of the `f32` division by the cell size is modelled explicitly
(`fl32`, round to nearest with ties to even); the concrete positions
used elsewhere are exactly representable in `f32` and the operations
on them are exact there.
-/

/-- A grid cell, the `(i32, i32)` key of the alive-cell `HashSet`. -/
abbrev Cell : Type := ℤ × ℤ

/-- The eight neighbor offsets visited by the double loop in
`simulate_game_of_life` (`dx` outer from -1 to 1, `dy` inner, the pair
`(0,0)` skipped). -/
def neighborOffsets : List Cell :=
  [(-1, -1), (-1, 0), (-1, 1), (0, -1), (0, 1), (1, -1), (1, 0), (1, 1)]

/-- The list of the eight neighbors of `a`, in the order the loop
inserts them into the neighbor-count table. -/
def neighborsList (a : Cell) : List Cell :=
  neighborOffsets.map (fun d => (a.1 + d.1, a.2 + d.2))

/-- The set of the eight neighbors of `a`. -/
def neighborsOf (a : Cell) : Finset Cell :=
  (neighborsList a).toFinset

/-- The count the neighbor table of `simulate_game_of_life` holds at
key `c` for store `s`: each alive cell `a` bumps the entry of each of
its eight neighbors by one, so the final count at `c` is the number of
alive cells having `c` as a neighbor. -/
def neighborCount (s : Finset Cell) (c : Cell) : ℕ :=
  (s.filter (fun a => c ∈ neighborsOf a)).card

/-- The key set of the neighbor table: exactly the cells bumped at
least once, i.e. the union of the neighbor sets of the alive cells. -/
def candidates (s : Finset Cell) : Finset Cell :=
  s.biUnion neighborsOf

/-- The generation step of `simulate_game_of_life`: of the table keys,
keep those whose count is 3, or whose count is 2 while the cell is
alive in the current store; the result replaces the store wholesale. -/
def simulateStep (s : Finset Cell) : Finset Cell :=
  (candidates s).filter (fun c => neighborCount s c = 3 ∨ (neighborCount s c = 2 ∧ c ∈ s))

lemma mem_neighborsList (a c : Cell) :
    c ∈ neighborsList a ↔
      ((c.1 ≠ a.1 ∨ c.2 ≠ a.2) ∧
        -1 ≤ c.1 - a.1 ∧ c.1 - a.1 ≤ 1 ∧ -1 ≤ c.2 - a.2 ∧ c.2 - a.2 ≤ 1) := by
  obtain ⟨cx, cy⟩ := c
  obtain ⟨ax, ay⟩ := a
  simp only [neighborsList, neighborOffsets, List.mem_map, List.mem_cons,
    List.not_mem_nil, or_false, Prod.mk.injEq, Prod.exists]
  constructor
  · rintro ⟨dx, dy, hmem, hx, hy⟩
    rcases hmem with h | h | h | h | h | h | h | h <;>
      (obtain ⟨h1, h2⟩ := h; subst h1; subst h2; simp_all; omega)
  · rintro ⟨hne, h1, h2, h3, h4⟩
    refine ⟨cx - ax, cy - ay, ?_, by ring, by ring⟩
    omega

lemma mem_neighborsOf (a c : Cell) :
    c ∈ neighborsOf a ↔
      ((c.1 ≠ a.1 ∨ c.2 ≠ a.2) ∧
        -1 ≤ c.1 - a.1 ∧ c.1 - a.1 ≤ 1 ∧ -1 ≤ c.2 - a.2 ∧ c.2 - a.2 ≤ 1) := by
  rw [neighborsOf, List.mem_toFinset, mem_neighborsList]

lemma neighborsOf_symm {a c : Cell} (h : c ∈ neighborsOf a) : a ∈ neighborsOf c := by
  rw [mem_neighborsOf] at h ⊢
  omega

lemma neighborOffsets_nodup : neighborOffsets.Nodup := by decide

lemma neighborsList_nodup (a : Cell) : (neighborsList a).Nodup := by
  refine List.Nodup.map ?_ neighborOffsets_nodup
  intro d e h
  obtain ⟨h1, h2⟩ := Prod.mk.injEq .. ▸ h
  exact Prod.ext (by omega) (by omega)

lemma card_neighborsOf (a : Cell) : (neighborsOf a).card = 8 := by
  rw [neighborsOf, List.toFinset_card_of_nodup (neighborsList_nodup a)]
  rfl

lemma neighborCount_pos_iff (s : Finset Cell) (c : Cell) :
    0 < neighborCount s c ↔ ∃ a ∈ s, c ∈ neighborsOf a := by
  rw [neighborCount, Finset.card_pos]
  constructor
  · rintro ⟨a, ha⟩
    rw [Finset.mem_filter] at ha
    exact ⟨a, ha.1, ha.2⟩
  · rintro ⟨a, has, hac⟩
    exact ⟨a, Finset.mem_filter.2 ⟨has, hac⟩⟩

lemma mem_candidates (s : Finset Cell) (c : Cell) :
    c ∈ candidates s ↔ ∃ a ∈ s, c ∈ neighborsOf a := by
  simp [candidates]

/-- C1: the generation step keeps exactly the cells whose neighbor
count is 3, or is 2 while the cell is currently alive; every other
cell (count 0, 1, 4..8, or absent from the table, i.e. count 0 here)
is dead in the next generation. -/
theorem generation_rule_correct (s : Finset Cell) (c : Cell) :
    c ∈ simulateStep s ↔
      (neighborCount s c = 3 ∨ (neighborCount s c = 2 ∧ c ∈ s)) := by
  rw [simulateStep, Finset.mem_filter]
  constructor
  · exact fun h => h.2
  · intro h
    refine ⟨?_, h⟩
    rw [mem_candidates, ← neighborCount_pos_iff]
    rcases h with h | ⟨h, _⟩ <;> omega

/-- C2: the horizontal blinker becomes the vertical triple after one
step and returns to the horizontal form after a second step. -/
theorem blinker_period_two :
    simulateStep {((0 : ℤ), (0 : ℤ)), (1, 0), (2, 0)} = {(1, -1), (1, 0), (1, 1)} ∧
    simulateStep {((1 : ℤ), (-1 : ℤ)), (1, 0), (1, 1)} = {(0, 0), (1, 0), (2, 0)} := by
  constructor <;> decide

/-- One increment of the neighbor-count table:
`*neighbor_counts.entry(c).or_insert(0) += 1` (an absent key counts as
zero, so the table is the function below). -/
def bumpCell (f : Cell → ℕ) (c : Cell) : Cell → ℕ :=
  fun x => if x = c then f x + 1 else f x

/-- The inner double loop of the table-building phase: one alive cell
`a` bumps each of its eight neighbors in turn. -/
def addNeighborCounts (f : Cell → ℕ) (a : Cell) : Cell → ℕ :=
  (neighborsList a).foldl bumpCell f

/-- The table-building phase run over an enumeration `l` of the alive
set, exactly as the `for` loop visits it. -/
def neighborCountsOf (l : List Cell) : Cell → ℕ :=
  l.foldl addNeighborCounts (fun _ => 0)

/-- The key set of the table built from enumeration `l`. -/
def tableKeysList (l : List Cell) : Finset Cell :=
  l.toFinset.biUnion neighborsOf

/-- The whole generation step run from an enumeration `l` of the alive
set: build the table by iterating over `l`, then apply the rule to
every table entry, testing liveness against the enumerated store. -/
def simulateStepList (l : List Cell) : Finset Cell :=
  (tableKeysList l).filter
    (fun c => neighborCountsOf l c = 3 ∨ (neighborCountsOf l c = 2 ∧ c ∈ l))

lemma foldl_bumpCell (ds : List Cell) (f : Cell → ℕ) (x : Cell) :
    (ds.foldl bumpCell f) x = f x + ds.countP (fun c => decide (x = c)) := by
  induction ds generalizing f with
  | nil => simp
  | cons d ds ih =>
      rw [List.foldl_cons, ih, List.countP_cons]
      simp only [decide_eq_true_eq]
      by_cases h : x = d
      · rw [if_pos h]
        simp only [bumpCell, if_pos h]
        omega
      · rw [if_neg h]
        simp only [bumpCell, if_neg h]
        omega

lemma countP_eq_ite_of_nodup {l : List Cell} (h : l.Nodup) (x : Cell) :
    l.countP (fun c => decide (x = c)) = if x ∈ l then 1 else 0 := by
  induction l with
  | nil => simp
  | cons a l ih =>
      obtain ⟨ha, hl⟩ := List.nodup_cons.1 h
      rw [List.countP_cons, ih hl]
      by_cases hx : x = a
      · subst hx
        rw [if_neg ha, if_pos (List.mem_cons_self x l)]
        simp
      · by_cases hxl : x ∈ l
        · simp [hx, hxl, List.mem_cons]
        · simp [hx, hxl, List.mem_cons]

lemma addNeighborCounts_apply (f : Cell → ℕ) (a x : Cell) :
    addNeighborCounts f a x = f x + (if x ∈ neighborsOf a then 1 else 0) := by
  rw [addNeighborCounts, foldl_bumpCell, countP_eq_ite_of_nodup (neighborsList_nodup a)]
  simp only [neighborsOf, List.mem_toFinset]

lemma foldl_addNeighborCounts (l : List Cell) (f : Cell → ℕ) (x : Cell) :
    (l.foldl addNeighborCounts f) x
      = f x + l.countP (fun a => decide (x ∈ neighborsOf a)) := by
  induction l generalizing f with
  | nil => simp
  | cons a l ih =>
      rw [List.foldl_cons, ih, addNeighborCounts_apply, List.countP_cons]
      by_cases h : x ∈ neighborsOf a
      · simp [h]
        omega
      · simp [h]

lemma neighborCountsOf_eq_countP (l : List Cell) (x : Cell) :
    neighborCountsOf l x = l.countP (fun a => decide (x ∈ neighborsOf a)) := by
  rw [neighborCountsOf, foldl_addNeighborCounts]
  exact Nat.zero_add _

lemma countP_mem_eq_card_filter {l : List Cell} (h : l.Nodup)
    (p : Cell → Prop) [DecidablePred p] :
    l.countP (fun a => decide (p a)) = (l.toFinset.filter p).card := by
  induction l with
  | nil => simp
  | cons a l ih =>
      obtain ⟨ha, hl⟩ := List.nodup_cons.1 h
      rw [List.countP_cons, List.toFinset_cons, Finset.filter_insert, ih hl]
      by_cases hp : p a
      · rw [if_pos hp,
          Finset.card_insert_of_not_mem
            (fun hmem => ha (List.mem_toFinset.1 (Finset.mem_filter.1 hmem).1))]
        simp [hp]
      · rw [if_neg hp]
        simp [hp]

lemma neighborCountsOf_eq_neighborCount {l : List Cell} (h : l.Nodup) (x : Cell) :
    neighborCountsOf l x = neighborCount l.toFinset x := by
  rw [neighborCountsOf_eq_countP, countP_mem_eq_card_filter h (fun a => x ∈ neighborsOf a),
    neighborCount]

lemma neighborCountsOf_perm {l1 l2 : List Cell} (h : l1.Perm l2) :
    neighborCountsOf l1 = neighborCountsOf l2 := by
  funext x
  rw [neighborCountsOf_eq_countP, neighborCountsOf_eq_countP, h.countP_eq]

lemma toFinset_perm {l1 l2 : List Cell} (h : l1.Perm l2) :
    l1.toFinset = l2.toFinset := by
  ext c
  simp [List.mem_toFinset, h.mem_iff]

/-- C3: the generation step is deterministic and independent of the
iteration order of the alive set: any two enumerations related by a
permutation produce the same next generation, and on a
duplicate-free enumeration the list-run step agrees with the
set-level step. -/
theorem advance_order_independent (l1 l2 : List Cell) (h : l1.Perm l2) :
    simulateStepList l1 = simulateStepList l2 ∧
      (l1.Nodup → simulateStepList l1 = simulateStep l1.toFinset) := by
  constructor
  · rw [simulateStepList, simulateStepList, tableKeysList, tableKeysList,
      toFinset_perm h, neighborCountsOf_perm h]
    ext c
    simp only [Finset.mem_filter]
    rw [h.mem_iff]
  · intro hnd
    rw [simulateStepList, simulateStep]
    ext c
    simp only [Finset.mem_filter, tableKeysList, candidates,
      neighborCountsOf_eq_neighborCount hnd, List.mem_toFinset]

/-- Witness for C3 at a concrete pair of enumerations of the blinker. -/
theorem advance_order_independent_witness :
    simulateStepList [((0 : ℤ), (0 : ℤ)), (1, 0), (2, 0)]
        = simulateStepList [((2 : ℤ), (0 : ℤ)), (0, 0), (1, 0)] ∧
      simulateStepList [((0 : ℤ), (0 : ℤ)), (1, 0), (2, 0)]
        = simulateStep ([((0 : ℤ), (0 : ℤ)), (1, 0), (2, 0)] : List Cell).toFinset := by
  have h := advance_order_independent
    [((0 : ℤ), (0 : ℤ)), (1, 0), (2, 0)] [((2 : ℤ), (0 : ℤ)), (0, 0), (1, 0)]
    (by decide)
  exact ⟨h.1, h.2 (by decide)⟩

/-- C9: every key of the neighbor table has a count between 1 and 8,
and a key is adjacent to at least one alive cell. -/
theorem neighbor_table_bounds (s : Finset Cell) (c : Cell) (h : c ∈ candidates s) :
    (1 ≤ neighborCount s c ∧ neighborCount s c ≤ 8) ∧ ∃ a ∈ s, c ∈ neighborsOf a := by
  have hmem := (mem_candidates s c).1 h
  refine ⟨⟨(neighborCount_pos_iff s c).2 hmem, ?_⟩, hmem⟩
  calc neighborCount s c
      ≤ (neighborsOf c).card := by
        refine Finset.card_le_card ?_
        intro a ha
        rw [Finset.mem_filter] at ha
        exact neighborsOf_symm ha.2
    _ = 8 := card_neighborsOf c

/-- Witness for C9 at the singleton store and a diagonal neighbor. -/
theorem neighbor_table_bounds_witness :
    (1 ≤ neighborCount {((0 : ℤ), (0 : ℤ))} (1, 1)
        ∧ neighborCount {((0 : ℤ), (0 : ℤ))} (1, 1) ≤ 8) ∧
      ∃ a ∈ ({((0 : ℤ), (0 : ℤ))} : Finset Cell), ((1 : ℤ), (1 : ℤ)) ∈ neighborsOf a :=
  neighbor_table_bounds {((0 : ℤ), (0 : ℤ))} (1, 1) (by decide)

/-- The draw-mode resource: one brush shape active at a time. -/
inductive DrawMode : Type
  | Single
  | Block3x3
  | Block5x5
deriving DecidableEq

/-- The brush offsets walked by the insert/remove loops of
`handle_mouse_input`: the anchor alone, the 3x3 square (`dx`, `dy`
from -1 to 1), or the 5x5 square (`dx`, `dy` from -2 to 2). -/
def brushOffsets : DrawMode → List Cell
  | DrawMode.Single => [(0, 0)]
  | DrawMode.Block3x3 =>
      [(-1, -1), (-1, 0), (-1, 1),
       (0, -1), (0, 0), (0, 1),
       (1, -1), (1, 0), (1, 1)]
  | DrawMode.Block5x5 =>
      [(-2, -2), (-2, -1), (-2, 0), (-2, 1), (-2, 2),
       (-1, -2), (-1, -1), (-1, 0), (-1, 1), (-1, 2),
       (0, -2), (0, -1), (0, 0), (0, 1), (0, 2),
       (1, -2), (1, -1), (1, 0), (1, 1), (1, 2),
       (2, -2), (2, -1), (2, 0), (2, 1), (2, 2)]

/-- The set of cells a paint or erase action touches from an anchor
cell under a draw mode. -/
def affectedCells (anchor : Cell) (m : DrawMode) : Finset Cell :=
  ((brushOffsets m).map (fun d => (anchor.1 + d.1, anchor.2 + d.2))).toFinset

/-- Left-button branch of `handle_mouse_input`: insert every brush
cell into the alive set, in loop order. -/
def applyPaint (s : Finset Cell) (anchor : Cell) (m : DrawMode) : Finset Cell :=
  (brushOffsets m).foldl (fun t d => insert (anchor.1 + d.1, anchor.2 + d.2) t) s

/-- Right-button branch of `handle_mouse_input`: remove every brush
cell from the alive set, in loop order. -/
def applyErase (s : Finset Cell) (anchor : Cell) (m : DrawMode) : Finset Cell :=
  (brushOffsets m).foldl (fun t d => t.erase (anchor.1 + d.1, anchor.2 + d.2)) s

/-- Tick interval of the repeating simulation timer, in nanoseconds
(`TICK_SPEED` = 0.07 s). -/
def tickNanos : ℕ := 70000000

/-- The mutable simulation resources: the alive-cell store, the
repeating timer's elapsed nanoseconds, the pause flag, and the draw
mode. -/
structure SimState : Type where
  alive_cells : Finset Cell
  elapsed : ℕ
  paused : Bool
  mode : DrawMode
deriving DecidableEq

/-- One frame of `simulate_game_of_life`: return untouched when
paused; otherwise tick the repeating timer by `delta` nanoseconds and,
when it finishes (total elapsed reached the interval), run one
generation step and wrap the timer to the remainder modulo the
interval (bevy keeps `elapsed - duration * times_finished`). -/
def stepSim (st : SimState) (delta : ℕ) : SimState :=
  if st.paused then st
  else
    if tickNanos ≤ st.elapsed + delta then
      { st with
          alive_cells := simulateStep st.alive_cells,
          elapsed := (st.elapsed + delta) % tickNanos }
    else { st with elapsed := st.elapsed + delta }

/-- The paint action on the whole state (`handle_mouse_input` with the
left button): only the alive-cell store changes; the pause flag is
never read. -/
def paintAt (st : SimState) (anchor : Cell) : SimState :=
  { st with alive_cells := applyPaint st.alive_cells anchor st.mode }

/-- The erase action on the whole state (`handle_mouse_input` with the
right button). -/
def eraseAt (st : SimState) (anchor : Cell) : SimState :=
  { st with alive_cells := applyErase st.alive_cells anchor st.mode }

/-- The clear action (`handle_keyboard_input` on KeyC):
`game.alive_cells.clear()`. -/
def clearAll (st : SimState) : SimState :=
  { st with alive_cells := ∅ }

lemma foldl_insert_eq_union (l : List Cell) (s : Finset Cell) (g : Cell → Cell) :
    l.foldl (fun t d => insert (g d) t) s = s ∪ (l.map g).toFinset := by
  induction l generalizing s with
  | nil => simp
  | cons d l ih =>
      rw [List.foldl_cons, ih, List.map_cons, List.toFinset_cons]
      ext c
      simp only [Finset.mem_union, Finset.mem_insert, List.mem_toFinset]
      tauto

lemma foldl_erase_eq_sdiff (l : List Cell) (s : Finset Cell) (g : Cell → Cell) :
    l.foldl (fun t d => t.erase (g d)) s = s \ (l.map g).toFinset := by
  induction l generalizing s with
  | nil => simp
  | cons d l ih =>
      rw [List.foldl_cons, ih, List.map_cons, List.toFinset_cons]
      ext c
      simp only [Finset.mem_sdiff, Finset.mem_erase, Finset.mem_insert, List.mem_toFinset]
      tauto

lemma applyPaint_eq_union (s : Finset Cell) (anchor : Cell) (m : DrawMode) :
    applyPaint s anchor m = s ∪ affectedCells anchor m :=
  foldl_insert_eq_union (brushOffsets m) s _

lemma applyErase_eq_sdiff (s : Finset Cell) (anchor : Cell) (m : DrawMode) :
    applyErase s anchor m = s \ affectedCells anchor m :=
  foldl_erase_eq_sdiff (brushOffsets m) s _

lemma brushOffsets_nodup (m : DrawMode) : (brushOffsets m).Nodup := by
  cases m <;> decide

lemma card_affectedCells (anchor : Cell) (m : DrawMode) :
    (affectedCells anchor m).card = (brushOffsets m).length := by
  rw [affectedCells, List.toFinset_card_of_nodup, List.length_map]
  refine List.Nodup.map ?_ (brushOffsets_nodup m)
  intro d e h
  obtain ⟨h1, h2⟩ := Prod.mk.injEq .. ▸ h
  exact Prod.ext (by omega) (by omega)

lemma mem_affectedCells (anchor c : Cell) (m : DrawMode) :
    c ∈ affectedCells anchor m ↔ (c.1 - anchor.1, c.2 - anchor.2) ∈ brushOffsets m := by
  obtain ⟨cx, cy⟩ := c
  obtain ⟨ax, ay⟩ := anchor
  simp only [affectedCells, List.mem_toFinset, List.mem_map]
  constructor
  · rintro ⟨d, hd, h⟩
    obtain ⟨h1, h2⟩ := Prod.mk.injEq .. ▸ h
    have : d = (cx - ax, cy - ay) := Prod.ext (by omega) (by omega)
    rwa [← this]
  · intro h
    exact ⟨(cx - ax, cy - ay), h, Prod.ext (by ring) (by ring)⟩

/-- Cell size in world units (`CELL_SIZE` = 10.0). -/
def cellSize : ℚ := 10

/-- One axis of the paint-cell mapping of `handle_mouse_input`:
`(world_pos / CELL_SIZE).floor() as i32`. -/
def worldToCellAxis (w : ℚ) : ℤ := ⌊w / cellSize⌋

/-- Rounding toward zero, the semantics of the bare `as i32` cast. -/
def truncToInt (q : ℚ) : ℤ := if 0 ≤ q then ⌊q⌋ else ⌈q⌉

/-- One axis of the cursor-preview mapping of `update_cursor_preview`:
`(world_pos / CELL_SIZE) as i32` (truncating, no floor). -/
def previewCellAxis (w : ℚ) : ℤ := truncToInt (w / cellSize)

/-- The full paint-cell mapping, both axes independent. -/
def worldToCell (w : ℚ × ℚ) : Cell := (worldToCellAxis w.1, worldToCellAxis w.2)

/-- The full cursor-preview cell mapping. -/
def previewCell (w : ℚ × ℚ) : Cell := (previewCellAxis w.1, previewCellAxis w.2)

/-- Round to the nearest integer, ties to even: the IEEE-754 default
rounding, applied to a scaled mantissa. -/
def roundTiesEven (x : ℚ) : ℤ :=
  if x - ⌊x⌋ < 1/2 then ⌊x⌋
  else if 1/2 < x - ⌊x⌋ then ⌊x⌋ + 1
  else if Even ⌊x⌋ then ⌊x⌋ else ⌊x⌋ + 1

/-- Round a rational to the nearest `f32` value: scale so the mantissa
lies in the binade [2^23, 2^24), round it to nearest with ties to
even, scale back.  This is the correctly rounded result the hardware
division produces throughout the normal range (overflow and subnormal
thresholds are never reached at the magnitudes considered here). -/
def fl32 (q : ℚ) : ℚ :=
  (roundTiesEven (q / 2 ^ (Int.log 2 |q| - 23)) : ℚ) * 2 ^ (Int.log 2 |q| - 23)

/-- One axis of the paint-cell mapping with the `f32` division made
explicit: `(world_pos.x / CELL_SIZE).floor() as i32` first computes
the correctly rounded `f32` quotient, then floors it.  `w` is the
exact rational value of the input `f32` position. -/
def worldToCellAxisF32 (w : ℚ) : ℤ := ⌊fl32 (w / cellSize)⌋

/-- The full paint-cell mapping with `f32` division rounding, both
axes independent. -/
def worldToCellF32 (w : ℚ × ℚ) : Cell := (worldToCellAxisF32 w.1, worldToCellAxisF32 w.2)

lemma mem_brushOffsets3 (dx dy : ℤ) :
    ((dx, dy) : Cell) ∈ brushOffsets DrawMode.Block3x3 ↔
      (-1 ≤ dx ∧ dx ≤ 1 ∧ -1 ≤ dy ∧ dy ≤ 1) := by
  constructor
  · intro h
    simp only [brushOffsets, List.mem_cons, List.not_mem_nil, or_false, Prod.mk.injEq] at h
    omega
  · rintro ⟨h1, h2, h3, h4⟩
    interval_cases dx <;> interval_cases dy <;> decide

lemma mem_brushOffsets5 (dx dy : ℤ) :
    ((dx, dy) : Cell) ∈ brushOffsets DrawMode.Block5x5 ↔
      (-2 ≤ dx ∧ dx ≤ 2 ∧ -2 ≤ dy ∧ dy ≤ 2) := by
  constructor
  · intro h
    simp only [brushOffsets, List.mem_cons, List.not_mem_nil, or_false, Prod.mk.injEq] at h
    omega
  · rintro ⟨h1, h2, h3, h4⟩
    interval_cases dx <;> interval_cases dy <;> decide

/-- C7: the brush touches exactly the anchor in Single mode, the 9
cells at offsets -1..1 in Block3x3 mode, the 25 cells at offsets -2..2
in Block5x5 mode, and the very same set is inserted on paint and
removed on erase. -/
theorem brush_affected_cells (anchor : Cell) :
    affectedCells anchor DrawMode.Single = {anchor} ∧
    (∀ c : Cell, c ∈ affectedCells anchor DrawMode.Block3x3 ↔
      (-1 ≤ c.1 - anchor.1 ∧ c.1 - anchor.1 ≤ 1 ∧
        -1 ≤ c.2 - anchor.2 ∧ c.2 - anchor.2 ≤ 1)) ∧
    (affectedCells anchor DrawMode.Block3x3).card = 9 ∧
    (∀ c : Cell, c ∈ affectedCells anchor DrawMode.Block5x5 ↔
      (-2 ≤ c.1 - anchor.1 ∧ c.1 - anchor.1 ≤ 2 ∧
        -2 ≤ c.2 - anchor.2 ∧ c.2 - anchor.2 ≤ 2)) ∧
    (affectedCells anchor DrawMode.Block5x5).card = 25 ∧
    (∀ (s : Finset Cell) (m : DrawMode),
      applyPaint s anchor m = s ∪ affectedCells anchor m ∧
      applyErase s anchor m = s \ affectedCells anchor m) := by
  refine ⟨?_, ?_, ?_, ?_, ?_, ?_⟩
  · ext c
    rw [mem_affectedCells, Finset.mem_singleton]
    simp only [brushOffsets, List.mem_cons, List.not_mem_nil, or_false, Prod.mk.injEq]
    obtain ⟨cx, cy⟩ := c
    obtain ⟨ax, ay⟩ := anchor
    simp only [Prod.mk.injEq]
    omega
  · intro c
    rw [mem_affectedCells, mem_brushOffsets3]
  · rw [card_affectedCells]
    rfl
  · intro c
    rw [mem_affectedCells, mem_brushOffsets5]
  · rw [card_affectedCells]
    rfl
  · intro s m
    exact ⟨applyPaint_eq_union s anchor m, applyErase_eq_sdiff s anchor m⟩

/-- C10: paint, erase and clear never read the pause flag: on two
states that differ only in the flag they produce the same alive set. -/
theorem edits_ignore_pause (cells : Finset Cell) (elapsed : ℕ) (m : DrawMode)
    (anchor : Cell) (b1 b2 : Bool) :
    (paintAt ⟨cells, elapsed, b1, m⟩ anchor).alive_cells
        = (paintAt ⟨cells, elapsed, b2, m⟩ anchor).alive_cells ∧
    (eraseAt ⟨cells, elapsed, b1, m⟩ anchor).alive_cells
        = (eraseAt ⟨cells, elapsed, b2, m⟩ anchor).alive_cells ∧
    (clearAll ⟨cells, elapsed, b1, m⟩).alive_cells
        = (clearAll ⟨cells, elapsed, b2, m⟩).alive_cells :=
  ⟨rfl, rfl, rfl⟩

/-- C5: while paused, any sequence of frame deltas leaves the whole
state (store and accumulated time) untouched, while paint, erase and
clear still act on the store as usual. -/
theorem paused_frames_no_change (st : SimState) (h : st.paused = true)
    (deltas : List ℕ) (anchor : Cell) :
    deltas.foldl stepSim st = st ∧
    (paintAt st anchor).alive_cells = st.alive_cells ∪ affectedCells anchor st.mode ∧
    (eraseAt st anchor).alive_cells = st.alive_cells \ affectedCells anchor st.mode ∧
    (clearAll st).alive_cells = ∅ := by
  refine ⟨?_, applyPaint_eq_union .., applyErase_eq_sdiff .., rfl⟩
  induction deltas with
  | nil => rfl
  | cons d ds ih =>
      rw [List.foldl_cons]
      have hstep : stepSim st d = st := by
        rw [stepSim, h]
        simp
      rw [hstep]
      exact ih

/-- Witness for C5 on a concrete paused state. -/
theorem paused_frames_no_change_witness :
    ([(35000000 : ℕ), 70000000, 140000000].foldl stepSim
        ⟨{((0 : ℤ), (0 : ℤ))}, 0, true, DrawMode.Single⟩
      = ⟨{((0 : ℤ), (0 : ℤ))}, 0, true, DrawMode.Single⟩) ∧
    (paintAt ⟨{((0 : ℤ), (0 : ℤ))}, 0, true, DrawMode.Single⟩ (5, 5)).alive_cells
      = {((0 : ℤ), (0 : ℤ))} ∪ affectedCells (5, 5) DrawMode.Single ∧
    (eraseAt ⟨{((0 : ℤ), (0 : ℤ))}, 0, true, DrawMode.Single⟩ (5, 5)).alive_cells
      = {((0 : ℤ), (0 : ℤ))} \ affectedCells (5, 5) DrawMode.Single ∧
    (clearAll ⟨{((0 : ℤ), (0 : ℤ))}, 0, true, DrawMode.Single⟩).alive_cells = ∅ :=
  paused_frames_no_change ⟨{((0 : ℤ), (0 : ℤ))}, 0, true, DrawMode.Single⟩ rfl
    [35000000, 70000000, 140000000] (5, 5)

/-- C4 counterexample input: the horizontal blinker as a store. -/
def blinkerH : Finset Cell := {((0 : ℤ), (0 : ℤ)), (1, 0), (2, 0)}

/-- C4 (as stated) is false: a single slow frame whose delta spans two
full tick intervals fires one generation advance, not two — the
repeating timer reports merely that it finished, and the handler runs
one generation per frame, so the blinker ends vertical instead of back
at its horizontal form. -/
theorem slow_frame_not_two_transitions :
    (stepSim ⟨blinkerH, 0, false, DrawMode.Single⟩ (2 * tickNanos)).alive_cells
        = simulateStep blinkerH ∧
      (stepSim ⟨blinkerH, 0, false, DrawMode.Single⟩ (2 * tickNanos)).alive_cells
        ≠ simulateStep (simulateStep blinkerH) ∧
      (stepSim ⟨blinkerH, 0, false, DrawMode.Single⟩ (2 * tickNanos)).elapsed = 0 := by
  refine ⟨?_, ?_, ?_⟩
  · rw [stepSim]
    simp [tickNanos]
  · rw [stepSim]
    simp only [tickNanos]
    decide
  · rw [stepSim]
    simp [tickNanos]

/-- C4 amended: while running, a frame whose accumulated time reaches
the tick interval fires exactly one generation advance — regardless of
how many full intervals the frame spans — and the accumulator wraps to
the remainder modulo the interval (equal to subtracting the interval
whenever fewer than two full intervals accumulated); below the
interval no advance fires and the delta only accumulates. -/
theorem tick_fires_one_advance (st : SimState) (delta : ℕ)
    (hrun : st.paused = false) :
    (tickNanos ≤ st.elapsed + delta →
      stepSim st delta =
        { st with
            alive_cells := simulateStep st.alive_cells,
            elapsed := (st.elapsed + delta) % tickNanos }) ∧
    (st.elapsed + delta < 2 * tickNanos → tickNanos ≤ st.elapsed + delta →
      (stepSim st delta).elapsed = st.elapsed + delta - tickNanos) ∧
    (st.elapsed + delta < tickNanos →
      stepSim st delta = { st with elapsed := st.elapsed + delta }) := by
  refine ⟨fun hfire => ?_, fun hlt hfire => ?_, fun hlow => ?_⟩
  · rw [stepSim, hrun]
    simp [hfire]
  · rw [stepSim, hrun]
    simp only [Bool.false_eq_true, if_false, if_pos hfire]
    have h2 : st.elapsed + delta - tickNanos < tickNanos := by
      have := tickNanos
      omega
    rw [Nat.mod_eq_sub_mod hfire, Nat.mod_eq_of_lt h2]
  · rw [stepSim, hrun]
    simp [Nat.not_le.2 hlow]

/-- Witness for C4 amended: a frame of 1.5 intervals from a fresh
timer fires one advance on the blinker and keeps half an interval. -/
theorem tick_fires_one_advance_witness :
    stepSim ⟨blinkerH, 0, false, DrawMode.Single⟩ 105000000 =
        ⟨simulateStep blinkerH, (0 + 105000000) % tickNanos, false, DrawMode.Single⟩ ∧
      (stepSim ⟨blinkerH, 0, false, DrawMode.Single⟩ 105000000).elapsed
        = 0 + 105000000 - tickNanos :=
  ⟨(tick_fires_one_advance ⟨blinkerH, 0, false, DrawMode.Single⟩ 105000000 rfl).1
      (by norm_num [tickNanos]),
    (tick_fires_one_advance ⟨blinkerH, 0, false, DrawMode.Single⟩ 105000000 rfl).2.1
      (by norm_num [tickNanos]) (by norm_num [tickNanos])⟩

/-- C6: the cursor-preview mapping (truncating cast) and the paint
mapping (floor) disagree: at the world position (-5, 5), whose x
coordinate is negative and strictly between the consecutive cell-size
multiples -10 and 0 (so not an exact multiple), the computed cells
differ by one on the x axis. -/
theorem preview_paint_mappings_differ :
    worldToCell ((-5 : ℚ), (5 : ℚ)) = (-1, 0) ∧
      previewCell ((-5 : ℚ), (5 : ℚ)) = (0, 0) ∧
      (previewCell ((-5 : ℚ), (5 : ℚ))).1 = (worldToCell ((-5 : ℚ), (5 : ℚ))).1 + 1 ∧
      (cellSize * (-1 : ℚ) < -5 ∧ (-5 : ℚ) < cellSize * 0) := by
  have hx : worldToCellAxis (-5) = -1 := by
    rw [worldToCellAxis, cellSize]
    norm_num
  have hy : worldToCellAxis 5 = 0 := by
    rw [worldToCellAxis, cellSize]
    norm_num
  have hx2 : previewCellAxis (-5) = 0 := by
    rw [previewCellAxis, truncToInt, cellSize]
    rw [if_neg (by norm_num)]
    norm_num
  have hy2 : previewCellAxis 5 = 0 := by
    rw [previewCellAxis, truncToInt, cellSize]
    rw [if_pos (by norm_num)]
    norm_num
  refine ⟨?_, ?_, ?_, ?_⟩
  · rw [worldToCell]
    rw [Prod.mk.injEq]
    exact ⟨hx, hy⟩
  · rw [previewCell]
    rw [Prod.mk.injEq]
    exact ⟨hx2, hy2⟩
  · rw [previewCell, worldToCell]
    simp only
    rw [hx, hx2]
    rfl
  · rw [cellSize]
    norm_num

lemma roundTiesEven_intCast (n : ℤ) : roundTiesEven (n : ℚ) = n := by
  rw [roundTiesEven, Int.floor_intCast]
  norm_num

lemma fl32_intCast (n : ℤ) (h : |n| < 2 ^ 24) : fl32 (n : ℚ) = n := by
  by_cases hn : n = 0
  · subst hn
    rw [fl32]
    norm_num [roundTiesEven]
  · have hpos : (0 : ℚ) < |(n : ℚ)| := by
      rw [abs_pos]
      exact_mod_cast hn
    have habs : |(n : ℚ)| = ((|n| : ℤ) : ℚ) := by push_cast; rfl
    have h24 : |(n : ℚ)| < (2 : ℚ) ^ (24 : ℤ) := by
      rw [habs]
      have h0 : ((2 : ℚ) ^ (24 : ℤ)) = ((2 ^ 24 : ℤ) : ℚ) := by norm_num
      rw [h0]
      exact_mod_cast h
    have hlog : Int.log 2 |(n : ℚ)| < 24 :=
      (Int.lt_zpow_iff_log_lt (by norm_num) hpos).1 h24
    set L : ℤ := Int.log 2 |(n : ℚ)| with hL
    set t : ℕ := (23 - L).toNat with ht
    have htz : (t : ℤ) = 23 - L := Int.toNat_of_nonneg (by omega)
    have hexp : (2 : ℚ) ^ (L - 23) = ((2 : ℚ) ^ t)⁻¹ := by
      rw [← zpow_natCast (2 : ℚ) t, ← zpow_neg, htz]
      ring_nf
    have hdiv : (n : ℚ) / 2 ^ (L - 23) = ((n * 2 ^ t : ℤ) : ℚ) := by
      rw [hexp, div_eq_mul_inv, inv_inv]
      push_cast
      ring
    rw [fl32, ← hL, hdiv, roundTiesEven_intCast, hexp]
    push_cast
    have h2t : ((2 : ℚ) ^ t) ≠ 0 := by positivity
    field_simp

lemma log_two_containment_gap : Int.log 2 ((83886088 : ℚ) / 10) = 23 := by
  have hpos : (0 : ℚ) < (83886088 : ℚ) / 10 := by norm_num
  have h23 : (2 : ℚ) ^ (23 : ℤ) ≤ (83886088 : ℚ) / 10 := by norm_num
  have h24 : (83886088 : ℚ) / 10 < (2 : ℚ) ^ (24 : ℤ) := by norm_num
  have hlo : (23 : ℤ) ≤ Int.log 2 ((83886088 : ℚ) / 10) :=
    (Int.zpow_le_iff_le_log (by norm_num) hpos).1 h23
  have hhi : Int.log 2 ((83886088 : ℚ) / 10) < 24 :=
    (Int.lt_zpow_iff_log_lt (by norm_num) hpos).1 h24
  omega

lemma fl32_containment_gap : fl32 ((83886088 : ℚ) / 10) = 8388609 := by
  have habs : |((83886088 : ℚ) / 10)| = (83886088 : ℚ) / 10 := by
    rw [abs_of_pos]
    norm_num
  rw [fl32, habs, log_two_containment_gap]
  norm_num [roundTiesEven]

/-- C8 (as stated) is false on the code: at the exactly representable
f32 world position 83886088 (= 2^3 * 10485761, odd part below 2^24),
the exact quotient 83886088 / 10 = 8388608.8 rounds in f32 to
8388609, so the computed paint cell is 8388609 and its square
[83886090, 83886100) does not contain the position; exact
floor-division would give cell 8388608. -/
theorem paint_cell_containment_fails :
    worldToCellAxisF32 (83886088 : ℚ) = 8388609 ∧
      ¬ (cellSize * ((worldToCellAxisF32 (83886088 : ℚ) : ℚ)) ≤ 83886088) := by
  have h : worldToCellAxisF32 (83886088 : ℚ) = 8388609 := by
    rw [worldToCellAxisF32, cellSize, fl32_containment_gap]
    norm_num
  refine ⟨h, ?_⟩
  rw [h, cellSize]
  norm_num

/-- C8 amended: the paint mapping floors the correctly rounded f32
quotient of the position by the cell size, each axis independent.
Whenever that division is exact, the position lies in the computed
cell's square on both axes — negative positions included, with no
bias toward zero — and every position at a multiple k * cellSize of
the cell size with |k| < 2^24 maps to the cell whose origin is that
multiple.  Containment fails only where the rounding carries the
quotient across an integer, as at the counterexample position. -/
theorem world_to_cell_floor_amended (w : ℚ × ℚ) :
    (fl32 (w.1 / cellSize) = w.1 / cellSize →
      cellSize * ((worldToCellF32 w).1 : ℚ) ≤ w.1 ∧
        w.1 < cellSize * (((worldToCellF32 w).1 : ℚ) + 1)) ∧
    (fl32 (w.2 / cellSize) = w.2 / cellSize →
      cellSize * ((worldToCellF32 w).2 : ℚ) ≤ w.2 ∧
        w.2 < cellSize * (((worldToCellF32 w).2 : ℚ) + 1)) ∧
    (∀ k : ℤ, |k| < 2 ^ 24 → worldToCellAxisF32 ((k : ℚ) * cellSize) = k) := by
  have hax : ∀ x : ℚ, fl32 (x / cellSize) = x / cellSize →
      cellSize * ((worldToCellAxisF32 x : ℚ)) ≤ x ∧
        x < cellSize * ((worldToCellAxisF32 x : ℚ) + 1) := by
    intro x hx
    have h1 : ((⌊x / cellSize⌋ : ℚ)) ≤ x / cellSize := Int.floor_le _
    have h2 : x / cellSize < (⌊x / cellSize⌋ : ℚ) + 1 := Int.lt_floor_add_one _
    rw [worldToCellAxisF32, hx]
    rw [cellSize] at h1 h2 ⊢
    constructor <;> linarith
  refine ⟨hax w.1, hax w.2, fun k hk => ?_⟩
  have h : ((k : ℚ) * cellSize) / cellSize = ((k : ℤ) : ℚ) := by
    rw [cellSize]
    norm_num
  rw [worldToCellAxisF32, h, fl32_intCast k hk, Int.floor_intCast]

/-- Witness for C8 amended: at the position (-10, 10) both divisions
are exact in f32 and containment holds on both axes, and the multiple
5 * cellSize maps to cell 5. -/
theorem world_to_cell_floor_amended_witness :
    (cellSize * ((worldToCellF32 ((-10 : ℚ), (10 : ℚ))).1 : ℚ) ≤ -10 ∧
      (-10 : ℚ) < cellSize * (((worldToCellF32 ((-10 : ℚ), (10 : ℚ))).1 : ℚ) + 1)) ∧
    (cellSize * ((worldToCellF32 ((-10 : ℚ), (10 : ℚ))).2 : ℚ) ≤ 10 ∧
      (10 : ℚ) < cellSize * (((worldToCellF32 ((-10 : ℚ), (10 : ℚ))).2 : ℚ) + 1)) ∧
    worldToCellAxisF32 ((5 : ℚ) * cellSize) = 5 := by
  have h := world_to_cell_floor_amended ((-10 : ℚ), (10 : ℚ))
  have e1 : fl32 ((-10 : ℚ) / cellSize) = (-10 : ℚ) / cellSize := by
    have hx : ((-10 : ℚ)) / cellSize = ((-1 : ℤ) : ℚ) := by
      rw [cellSize]
      norm_num
    rw [hx, fl32_intCast (-1) (by norm_num)]
  have e2 : fl32 ((10 : ℚ) / cellSize) = (10 : ℚ) / cellSize := by
    have hx : ((10 : ℚ)) / cellSize = ((1 : ℤ) : ℚ) := by
      rw [cellSize]
      norm_num
    rw [hx, fl32_intCast 1 (by norm_num)]
  exact ⟨h.1 e1, h.2.1 e2, h.2.2 5 (by norm_num)⟩
